/-
Verification of the rclone-pathmap virtual-filesystem server and mount
supervision code (rclone_pathmap.py) against its natural-language
specification.  The Python source is shallowly embedded below: pure string
manipulation becomes Lean functions on String / List String, the asyncio
polling loops become explicit step functions over traces (Nat-indexed
snapshots of the polled conditions), subprocess results become explicit
records, and exceptions become Except.
-/
import Mathlib

namespace RClonePathmap

/-! ## Python string primitives used by the source

`mapping.split('/')` and `'/'.join(parts)` from `_create_app`.  These are
modelled structurally over the character list so that they are executable
and kernel-reducible. -/

/-- Character-list core of Python `s.split('/')`: `""` splits to `[""]`,
and every `'/'` starts a new (possibly empty) field. -/
def splitCharList : List Char → List (List Char)
  | [] => [[]]
  | c :: rest =>
    if c = '/' then [] :: splitCharList rest
    else
      match splitCharList rest with
      | [] => [[c]]
      | x :: xs => (c :: x) :: xs

/-- Python `s.split('/')` on a `String`. -/
def pySplitSlash (s : String) : List String :=
  (splitCharList s.data).map (fun cs => String.mk cs)

/-- Python `'/'.join(parts)`. -/
def joinSlash : List String → String
  | [] => ""
  | [a] => a
  | a :: rest => a ++ "/" ++ joinSlash rest

/-- The string key the source uses for the directory with segment list `p`:
`'/'.join([''] + p) + '/'` — `/` for `p = []`, `/a/b/` for `p = [a, b]`. -/
def dirKey (p : List String) : String :=
  joinSlash ("" :: p) ++ "/"

/-! ## The `listing` structure of `_create_app`

Python builds `listing` as a dict from directory key to an inner dict whose
keys are the entries (values are always `True`).  We embed it as an
association list from key to the ordered list of distinct entries, with the
dict operations `if k not in listing: listing[k] = {}` and
`listing[k][v] = True`. -/

abbrev Listing := List (String × List String)

/-- `if k not in listing: listing[k] = {}` followed by `listing[k][v] = True`. -/
def listingAdd (l : Listing) (k v : String) : Listing :=
  match l with
  | [] => [(k, [v])]
  | (k0, vs) :: rest =>
    if k0 = k then (k0, if v ∈ vs then vs else vs ++ [v]) :: rest
    else (k0, vs) :: listingAdd rest k v

/-- `listing[k]` (the inner dict's key list), `[]` when `k` is absent. -/
def listingGet (l : Listing) (k : String) : List String :=
  match l with
  | [] => []
  | (k0, vs) :: rest => if k0 = k then vs else listingGet rest k

/-- `k in listing`. -/
def listingHasKey (l : Listing) (k : String) : Bool :=
  match l with
  | [] => false
  | (k0, _) :: rest => k0 = k || listingHasKey rest k

/-- Body of `for mapping in mappings` in `_create_app`, for a mapping whose
`mapping.split('/')` is `ss`:

    for i in range(1, len(src_split)):
      path_parent = '/'.join(src_split[:i-1]) + '/'
      path_current = '/'.join(src_split[:i]) + '/'
      if path_parent not in listing: listing[path_parent] = \x7b\x7d
      listing[path_parent][path_current] = True
    path_parent = '/'.join(src_split[:-1]) + '/'
    if path_parent not in listing: listing[path_parent] = \x7b\x7d
    listing[path_parent][src_split[-1]] = True
-/
def addMappingSegs (l : Listing) (ss : List String) : Listing :=
  let l1 := (List.range' 1 (ss.length - 1)).foldl
    (fun acc i =>
      listingAdd acc (joinSlash (ss.take (i - 1)) ++ "/") (joinSlash (ss.take i) ++ "/"))
    l
  listingAdd l1 (joinSlash ss.dropLast ++ "/") (ss.getLastD "")

/-- The listing built by `_create_app` from a list of mapping keys (the
Python `for mapping in mappings` iterates over the dict's keys). -/
def buildListing (mappings : List String) : Listing :=
  mappings.foldl (fun l m => addMappingSegs l (pySplitSlash m)) []

/-! ## `_try_wait_for`

    async def _try_wait_for(cond, args=tuple(), max_tries=3, backoff=1):
      while True:
        if await _await(cond(*args)):
          return True
        max_tries -= 1
        if max_tries <= 0:
          return False
        await asyncio.sleep(backoff)

The successive evaluations of `cond` are modelled as a trace
`cond : Nat → Bool` (`cond t` is the value returned by the `t`-th call).
The embedding also counts how many times `cond` was called. -/

def tryWaitForAux (cond : Nat → Bool) (t : Nat) (maxTries : Int) : Bool × Nat :=
  if cond t then (true, 1)
  else if maxTries - 1 ≤ 0 then (false, 1)
  else
    let r := tryWaitForAux cond (t + 1) (maxTries - 1)
    (r.1, r.2 + 1)
termination_by maxTries.toNat
decreasing_by
  omega

/-- `_try_wait_for(cond, max_tries=maxTries)`: result and number of `cond`
evaluations. -/
def tryWaitFor (cond : Nat → Bool) (maxTries : Int) : Bool × Nat :=
  tryWaitForAux cond 0 maxTries

/-! ## `MountTemporaryDirectory` teardown

    finally:
      if await _try_wait_for(_mountdir.is_mount) and mountdir is None:
        _mountdir.rmdir()

`isMount t` is the value of `_mountdir.is_mount()` at the `t`-th poll;
`ownedNone` is `mountdir is None` (i.e. the directory was created by the
system).  The function returns whether `rmdir` is executed. -/

def mountTempDirRemoves (isMount : Nat → Bool) (ownedNone : Bool) : Bool :=
  (tryWaitFor isMount 3).1 && ownedNone

/-! ## `_rclone_file_headers` and `_async_lru_cache`

The external `rclone lsjson <path>` invocation is modelled by its observable
result: the process return code together with the parsed JSON array of
metadata objects.  `datetime.now()` is an opaque string supplied by the
environment, and `_datetime_to_rfc2822(fromTs(...))` is an opaque
transformation `fmt` of the source timestamp string. -/

structure FileMeta where
  size : Int
  mimeType : String
  modTime : String
deriving DecidableEq, Repr

structure LsjsonResult where
  returncode : Int
  objects : List FileMeta
deriving DecidableEq, Repr

structure RHeaders where
  contentLength : String
  contentType : String
  date : String
  lastModified : String
deriving DecidableEq, Repr

/-- `_rclone_file_headers` body, given the external process result, the
current time string and the timestamp formatter.  `returncode != 0` yields
`None`; unpacking `file_metadata, = json.loads(stdout)` raises `ValueError`
(modelled as `.error ()`) unless the array has exactly one object. -/
def rcloneFileHeaders (res : LsjsonResult) (now : String) (fmt : String → String) :
    Except Unit (Option RHeaders) :=
  if res.returncode ≠ 0 then .ok none
  else
    match res.objects with
    | [m] => .ok (some ⟨toString m.size, m.mimeType, now, fmt m.modTime⟩)
    | _ => .error ()

/-- Cache state of the `_async_lru_cache()` wrapper around
`_rclone_file_headers` (unbounded variant, `cache_size is None`): the cache
dict (keyed by the `rclone_path` argument, since `json.dumps` of the
argument tuple is injective in it) plus the number of external invocations
performed so far. -/
structure CacheState where
  cache : List (String × Option RHeaders)
  calls : Nat
deriving DecidableEq, Repr

/-- Python dict lookup on an association list. -/
def assocLookup {α : Type} (l : List (String × α)) (k : String) : Option α :=
  match l with
  | [] => none
  | (k0, v) :: rest => if k0 = k then some v else assocLookup rest k

/-- One call of the cached `_rclone_file_headers(rclone_path)`.
`query n` / `now n` describe the `n`-th external invocation (0-indexed).
On a cache hit the stored value is returned and no invocation happens; on a
miss `_cache[k] = await func(...)` stores whatever the call returns —
including `None` — unless the call raises, in which case nothing is stored. -/
def cachedRcloneFileHeaders (query : Nat → LsjsonResult) (now : Nat → String)
    (fmt : String → String) (st : CacheState) (k : String) :
    Except Unit (Option RHeaders) × CacheState :=
  match assocLookup st.cache k with
  | some v => (.ok v, st)
  | none =>
    match rcloneFileHeaders (query st.calls) (now st.calls) fmt with
    | .ok v => (.ok v, ⟨st.cache ++ [(k, v)], st.calls + 1⟩)
    | .error e => (.error e, ⟨st.cache, st.calls + 1⟩)

/-! ## `_serve_rclone_file`

The content-read collaborator (`rclone cat`) is modelled by the outcome of
`asyncio.create_subprocess_exec`: either the spawn raises (`.error ()`) or
it yields the sequence of chunks that the successive
`proc.stdout.read(chunk_size)` calls return before `at_eof()` becomes true.
Bytes are `Nat`s. -/

inductive Method where
  | get
  | head
  | post
  | put
  | delete
  | patch
  | options
deriving DecidableEq, Repr

/-- The `while not proc.stdout.at_eof(): chunk = await proc.stdout.read(...);
await response.write(chunk)` pump: the body is the chunks written in order. -/
def streamBody : List (List Nat) → List Nat
  | [] => []
  | c :: cs => c ++ streamBody cs

inductive ServeOutcome where
  /-- `raise web.HTTPNotFound` because the metadata fetch returned `None`. -/
  | raisedNotFound
  /-- the metadata fetch itself raised (`ValueError` from unpacking). -/
  | raisedValueError
  /-- HEAD: 200, headers only, empty body. -/
  | headOk (headers : RHeaders)
  /-- GET: 200 streamed to completion with the given body. -/
  | getOk (headers : RHeaders) (body : List Nat)
  /-- GET where the spawn failed: the exception is logged, a 200
  `StreamResponse` is prepared, and then the unbound local `proc` is
  dereferenced, raising `NameError` out of the handler mid-stream. -/
  | abortedNameError (headers : RHeaders)
deriving DecidableEq, Repr

/-- `_serve_rclone_file(request, rclone_path)` given the request method, the
(cached) metadata fetch outcome and the content-read spawn outcome. -/
def serveRcloneFile (method : Method) (hdrs : Except Unit (Option RHeaders))
    (spawn : Except Unit (List (List Nat))) : ServeOutcome :=
  match hdrs with
  | .error _ => .raisedValueError
  | .ok none => .raisedNotFound
  | .ok (some h) =>
    if method = .head then .headOk h
    else
      match spawn with
      | .error _ => .abortedNameError h
      | .ok chunks => .getOk h (streamBody chunks)

/-! ## The request handler and aiohttp routing

`_create_app` registers exactly one route, `web.get('/\x7bpath:.*\x7d', handler)`.
`web.get` handles methods GET and HEAD (aiohttp's default `allow_head=True`);
the URL dispatcher answers 405 Method Not Allowed for every other method,
since the catch-all resource matches every path but carries no route for it.
The handler reconstructs `path = f"/\x7b...\x7d"` = the request path. -/

inductive HandlerOutcome where
  /-- `path in mappings`: delegate to `_serve_rclone_file`. -/
  | file (s : ServeOutcome)
  /-- `path in listing`: 200 with one anchor per entry of `listing[path]`. -/
  | dirListing (entries : List String)
  /-- `raise web.HTTPNotFound`. -/
  | notFound
deriving DecidableEq, Repr

def handler (mappings : List (String × String))
    (hdrsFor : String → Except Unit (Option RHeaders))
    (spawnFor : String → Except Unit (List (List Nat)))
    (method : Method) (path : String) : HandlerOutcome :=
  match assocLookup mappings path with
  | some rclonePath => .file (serveRcloneFile method (hdrsFor rclonePath) (spawnFor rclonePath))
  | none =>
    let listing := buildListing (mappings.map Prod.fst)
    if listingHasKey listing path then .dirListing (listingGet listing path)
    else .notFound

/-- HTTP status of an outcome, as observed by the client (for the
mid-stream `NameError` abort the status line already sent is 200). -/
def outcomeStatus : HandlerOutcome → Nat
  | .file .raisedNotFound => 404
  | .file .raisedValueError => 500
  | .file (.headOk _) => 200
  | .file (.getOk _ _) => 200
  | .file (.abortedNameError _) => 200
  | .dirListing _ => 200
  | .notFound => 404

/-- Full dispatch: aiohttp resolves the catch-all GET route only for GET and
HEAD; any other method receives 405 without the handler running. -/
def dispatchStatus (mappings : List (String × String))
    (hdrsFor : String → Except Unit (Option RHeaders))
    (spawnFor : String → Except Unit (List (List Nat)))
    (method : Method) (path : String) : Nat :=
  if method = .get ∨ method = .head then
    outcomeStatus (handler mappings hdrsFor spawnFor method path)
  else 405

/-! ## `RCloneMount` startup wait

    proc = await asyncio.create_subprocess_exec(*args)
    while proc.returncode is None and not mountdir.is_mount():
      await asyncio.sleep(1)
    assert proc.returncode is None

`rc t` / `im t` are `proc.returncode` and `mountdir.is_mount()` as observed
at the `t`-th iteration of the poll loop.  The loop itself has no bound, so
the embedding is fuel-indexed: `none` means the loop is still running after
`fuel` iterations. -/

inductive MountOutcome where
  /-- loop exited with the mount observed and the process alive: the
  session (`yield proc`) is handed to the caller. -/
  | active (t : Nat)
  /-- loop exited because `returncode` was set: `assert proc.returncode is
  None` fails, `AssertionError` propagates, the session is never yielded. -/
  | assertFailed (t : Nat)
deriving DecidableEq, Repr

def rcloneMountWait (rc : Nat → Option Int) (im : Nat → Bool) :
    Nat → Nat → Option MountOutcome
  | 0, _ => none
  | fuel + 1, t =>
    if rc t = none ∧ im t = false then rcloneMountWait rc im fuel (t + 1)
    else if rc t = none then some (.active t)
    else some (.assertFailed t)

/-! ## Auxiliary definitions for the listing proofs -/

/-- One dict insertion, pair form. -/
def addPair (acc : Listing) (p : String × String) : Listing :=
  listingAdd acc p.1 p.2

/-- The (key, entry) pairs inserted by `addMappingSegs` for split list `ss`,
in insertion order: the `range(1, len(src_split))` loop pairs followed by
the final leaf pair. -/
def genPairs (ss : List String) : List (String × String) :=
  (List.range' 1 (ss.length - 1)).map
    (fun i => (joinSlash (ss.take (i - 1)) ++ "/", joinSlash (ss.take i) ++ "/"))
    ++ [(joinSlash ss.dropLast ++ "/", ss.getLastD "")]

/-- Character-list version of `joinSlash`, for injectivity reasoning. -/
def joinCL : List (List Char) → List Char
  | [] => []
  | [a] => a
  | a :: rest => a ++ '/' :: joinCL rest

/-! ## Spec-side definitions (for refinement comparison)

These follow the specification's words, to be compared with the
source-derived listing: a directory with segment list `p` has as immediate
children the sub-paths one segment deeper — intermediate directory
segments (rendered by the source as the full directory path with trailing
slash) and leaf virtual paths (rendered as the final segment name). -/

/-- Spec: is `v` an immediate child entry of the directory with segment
list `p`, for the mapping whose virtual paths have segment lists `S`? -/
def specImmediateChild (S : List (List String)) (p : List String) (v : String) : Bool :=
  S.any fun segs =>
    (decide (p.length + 1 < segs.length) && (segs.take p.length == p)
      && (v == dirKey (segs.take (p.length + 1))))
    || ((segs.length == p.length + 1) && (segs.take p.length == p)
      && (v == segs.getLastD ""))

/-- A path segment contains no `'/'`. -/
def SlashFree (s : String) : Prop := ('/' : Char) ∉ s.data

instance (s : String) : Decidable (SlashFree s) := by
  unfold SlashFree; infer_instance

/-- Well-formed segment decomposition of a virtual file path: at least one
segment, all segments nonempty and slash-free. -/
def ValidSegs (segs : List String) : Prop :=
  segs ≠ [] ∧ ∀ x ∈ segs, x ≠ "" ∧ SlashFree x

instance (segs : List String) : Decidable (ValidSegs segs) := by
  unfold ValidSegs; infer_instance

/-- Well-formed segment list of a directory (the root is `[]`). -/
def ValidDir (p : List String) : Prop :=
  ∀ x ∈ p, x ≠ "" ∧ SlashFree x

instance (p : List String) : Decidable (ValidDir p) := by
  unfold ValidDir; infer_instance

/-! # Theorems -/

/-! ## Generic lemmas -/

theorem assocLookup_append_of_none {α : Type} (l : List (String × α)) (k : String) (v : α)
    (h : assocLookup l k = none) : assocLookup (l ++ [(k, v)]) k = some v := by
  induction l with
  | nil => simp [assocLookup]
  | cons hd tl ih =>
    obtain ⟨k0, v0⟩ := hd
    simp only [assocLookup, List.cons_append] at h ⊢
    by_cases hk : k0 = k
    · simp [hk] at h
    · simp only [hk, if_false] at h ⊢
      exact ih h

/-- Behavioural characterization of the `_try_wait_for` loop, starting at
evaluation index `t` with budget `mt`: at least one and at most
`max 1 mt` evaluations happen; on `True` the last evaluated condition was
true and all earlier ones false; on `False` the whole budget was used and
every evaluated condition was false. -/
theorem tryWaitForAux_spec (n : Nat) : ∀ (mt : Int), mt.toNat ≤ n →
    ∀ (cond : Nat → Bool) (t : Nat),
    1 ≤ (tryWaitForAux cond t mt).2 ∧
    (tryWaitForAux cond t mt).2 ≤ (max 1 mt).toNat ∧
    ((tryWaitForAux cond t mt).1 = true →
      cond (t + ((tryWaitForAux cond t mt).2 - 1)) = true ∧
      ∀ j < (tryWaitForAux cond t mt).2 - 1, cond (t + j) = false) ∧
    ((tryWaitForAux cond t mt).1 = false →
      (tryWaitForAux cond t mt).2 = (max 1 mt).toNat ∧
      ∀ j < (max 1 mt).toNat, cond (t + j) = false) := by
  induction n with
  | zero =>
    intro mt hmt cond t
    have hmax : max 1 mt = 1 := max_eq_left (by omega)
    cases hcb : cond t with
    | true =>
      have hstep : tryWaitForAux cond t mt = (true, 1) := by
        rw [tryWaitForAux]; simp [hcb]
      rw [hstep]
      refine ⟨le_refl 1, by rw [hmax]; simp, fun _ => ⟨by simpa using hcb, by omega⟩, by simp⟩
    | false =>
      have hstep : tryWaitForAux cond t mt = (false, 1) := by
        rw [tryWaitForAux]; simp [hcb, (by omega : mt - 1 ≤ 0)]
      rw [hstep]
      refine ⟨le_refl 1, by rw [hmax]; simp, by simp, fun _ => ⟨by rw [hmax]; simp, ?_⟩⟩
      intro j hj
      rw [hmax] at hj
      simp only [Int.toNat_one, Nat.lt_one_iff] at hj
      subst hj
      simpa using hcb
  | succ n ih =>
    intro mt hmt cond t
    cases hcb : cond t with
    | true =>
      have hstep : tryWaitForAux cond t mt = (true, 1) := by
        rw [tryWaitForAux]; simp [hcb]
      rw [hstep]
      have hmax : (1 : Int) ≤ max 1 mt := le_max_left 1 mt
      refine ⟨le_refl 1, by omega, fun _ => ⟨by simpa using hcb, by omega⟩, by simp⟩
    | false =>
      by_cases hstop : mt - 1 ≤ 0
      · have hmax : max 1 mt = 1 := max_eq_left (by omega)
        have hstep : tryWaitForAux cond t mt = (false, 1) := by
          rw [tryWaitForAux]; simp [hcb, hstop]
        rw [hstep]
        refine ⟨le_refl 1, by rw [hmax]; simp, by simp, fun _ => ⟨by rw [hmax]; simp, ?_⟩⟩
        intro j hj
        rw [hmax] at hj
        simp only [Int.toNat_one, Nat.lt_one_iff] at hj
        subst hj
        simpa using hcb
      · have hstep : tryWaitForAux cond t mt
            = ((tryWaitForAux cond (t + 1) (mt - 1)).1,
               (tryWaitForAux cond (t + 1) (mt - 1)).2 + 1) := by
          rw [tryWaitForAux]; simp [hcb, hstop]
        rw [hstep]
        obtain ⟨h1, h2, h3, h4⟩ := ih (mt - 1) (by omega) cond (t + 1)
        have hmax : (max 1 mt).toNat = (max 1 (mt - 1)).toNat + 1 := by
          have e1 : max 1 mt = mt := max_eq_right (by omega)
          have e2 : max 1 (mt - 1) = mt - 1 := max_eq_right (by omega)
          rw [e1, e2]; omega
        refine ⟨by omega, by omega, ?_, ?_⟩
        · intro hres
          obtain ⟨ha, hb⟩ := h3 hres
          constructor
          · have he : t + ((tryWaitForAux cond (t + 1) (mt - 1)).2 + 1 - 1)
                = t + 1 + ((tryWaitForAux cond (t + 1) (mt - 1)).2 - 1) := by omega
            rwa [he]
          · intro j hj
            match j with
            | 0 => simpa using hcb
            | j + 1 =>
              have := hb j (by omega)
              have he : t + (j + 1) = t + 1 + j := by omega
              rwa [he]
        · intro hres
          obtain ⟨ha, hb⟩ := h4 hres
          refine ⟨by omega, ?_⟩
          intro j hj
          match j with
          | 0 => simpa using hcb
          | j + 1 =>
            have := hb j (by omega)
            have he : t + (j + 1) = t + 1 + j := by omega
            rwa [he]

/-- The `RCloneMount` startup poll loop, started at time `t0`: while the
first `T` polls see a live process and no mount, the loop is still running
after at most `T` iterations, and if the process has exited by poll `T`
the loop stops there and the liveness assertion fails. -/
theorem rcloneMountWait_reach (rc : Nat → Option Int) (im : Nat → Bool) :
    ∀ (T t0 : Nat), (∀ t, t < T → rc (t0 + t) = none ∧ im (t0 + t) = false) →
      (∀ fuel, fuel ≤ T → rcloneMountWait rc im fuel t0 = none) ∧
      (rc (t0 + T) ≠ none → ∀ fuel, T < fuel →
        rcloneMountWait rc im fuel t0 = some (.assertFailed (t0 + T))) := by
  intro T
  induction T with
  | zero =>
    intro t0 _
    constructor
    · intro fuel hfuel
      interval_cases fuel
      rfl
    · intro hexit fuel hfuel
      obtain ⟨fuel, rfl⟩ : ∃ f, fuel = f + 1 := ⟨fuel - 1, by omega⟩
      rw [rcloneMountWait]
      rw [if_neg (by simpa using fun h => absurd h hexit)]
      rw [if_neg (by simpa using hexit)]
      simp
  | succ T ih =>
    intro t0 hpre
    have h0 := hpre 0 (by omega)
    have hshift : ∀ t, t < T → rc (t0 + 1 + t) = none ∧ im (t0 + 1 + t) = false := by
      intro t ht
      have := hpre (t + 1) (by omega)
      have he : t0 + (t + 1) = t0 + 1 + t := by omega
      rwa [he] at this
    have hd := ih (t0 + 1) hshift
    constructor
    · intro fuel hfuel
      match fuel with
      | 0 => rfl
      | fuel + 1 =>
        rw [rcloneMountWait]
        rw [if_pos (by simpa using h0)]
        exact hd.1 fuel (by omega)
    · intro hexit fuel hfuel
      obtain ⟨fuel, rfl⟩ : ∃ f, fuel = f + 1 := ⟨fuel - 1, by omega⟩
      rw [rcloneMountWait]
      rw [if_pos (by simpa using h0)]
      have he : t0 + 1 + T = t0 + (T + 1) := by omega
      rw [he] at hd
      exact hd.2 hexit fuel (by omega)

/-! ## Claim C10 -/

/-- Claim C10: `_try_wait_for` terminates for every integer `max_tries`
(the embedding is total by the decreasing measure `maxTries.toNat`); it
evaluates the condition at least once and at most `max 1 maxTries` times,
returns `True` exactly when one of the evaluations in that budget is true
(stopping at the first true one), and returns `False` after exhausting the
whole budget with every evaluation false. -/
theorem tryWaitFor_characterization (cond : Nat → Bool) (maxTries : Int) :
    1 ≤ (tryWaitFor cond maxTries).2 ∧
    (tryWaitFor cond maxTries).2 ≤ (max 1 maxTries).toNat ∧
    ((tryWaitFor cond maxTries).1 = true ↔
      ∃ i, i < (max 1 maxTries).toNat ∧ cond i = true) ∧
    ((tryWaitFor cond maxTries).1 = true →
      cond ((tryWaitFor cond maxTries).2 - 1) = true ∧
      ∀ j < (tryWaitFor cond maxTries).2 - 1, cond j = false) ∧
    ((tryWaitFor cond maxTries).1 = false →
      (tryWaitFor cond maxTries).2 = (max 1 maxTries).toNat ∧
      ∀ j < (max 1 maxTries).toNat, cond j = false) := by
  obtain ⟨h1, h2, h3, h4⟩ :=
    tryWaitForAux_spec maxTries.toNat maxTries (le_refl _) cond 0
  simp only [Nat.zero_add] at h3 h4
  refine ⟨h1, h2, ?_, h3, h4⟩
  constructor
  · intro hres
    obtain ⟨ha, _⟩ := h3 hres
    exact ⟨(tryWaitForAux cond 0 maxTries).2 - 1, by omega, ha⟩
  · intro ⟨i, hi, hci⟩
    cases hres : (tryWaitFor cond maxTries).1 with
    | true => rfl
    | false =>
      obtain ⟨_, hall⟩ := h4 hres
      rw [hall i hi] at hci
      exact absurd hci (by simp)

/-! ## Claim C9 -/

/-- Claim C9: in `MountTemporaryDirectory`, when the mount directory was
supplied by the caller (`mountdir is not None`, i.e. not owned), the
teardown never executes `rmdir`, whatever the observed `is_mount` history
is — only a system-created temporary directory can ever be removed. -/
theorem mountTempDir_never_removes_caller_dir (isMount : Nat → Bool) :
    mountTempDirRemoves isMount false = false := by
  simp [mountTempDirRemoves]

/-! ## Claim C2 -/

/-- Claim C2 (code bug): the teardown of `MountTemporaryDirectory` polls
`_try_wait_for(_mountdir.is_mount)` — i.e. it waits for the path to BE a
mount — instead of waiting for it to no longer be one.  Consequently an
owned directory that is already unmounted at release time (`is_mount`
false at every poll) is NOT removed, and an owned directory that is still
mounted after the retries IS handed to `rmdir` (which would fail on a
mount point).  This theorem evaluates the code's behaviour on those two
failing inputs. -/
theorem mountTempDir_release_bug :
    mountTempDirRemoves (fun _ => false) true = false ∧
    mountTempDirRemoves (fun _ => true) true = true := by
  constructor
  · have hstep : (tryWaitFor (fun _ => false) 3).1 = false := by
      rw [tryWaitFor, tryWaitForAux]
      norm_num
      rw [tryWaitForAux]
      norm_num
      rw [tryWaitForAux]
      norm_num
    simp [mountTempDirRemoves, hstep]
  · have hstep : (tryWaitFor (fun _ => true) 3).1 = true := by
      rw [tryWaitFor, tryWaitForAux]
      norm_num
    simp [mountTempDirRemoves, hstep]

/-! ## Claim C8 -/

/-- Claim C8: in `RCloneMount`, if the mount process exits (returncode set
at poll `T`) and the mount point was never observed as an active mount up
to that poll, the startup poll loop stops at poll `T` and the
`assert proc.returncode is None` fails: the failure is an assertion error,
it is not retried, the loop does not run beyond `T` (no hang), and the
session is never yielded to the caller. -/
theorem rcloneMount_exit_before_mount_asserts (rc : Nat → Option Int) (im : Nat → Bool)
    (T : Nat) (hexit : rc T ≠ none)
    (halive : ∀ t, t < T → rc t = none)
    (hnomount : ∀ t, t ≤ T → im t = false) :
    (∀ fuel, T < fuel → rcloneMountWait rc im fuel 0 = some (.assertFailed T)) ∧
    (∀ fuel t, rcloneMountWait rc im fuel 0 ≠ some (.active t)) := by
  have hpre : ∀ t, t < T → rc (0 + t) = none ∧ im (0 + t) = false := by
    intro t ht
    simpa using ⟨halive t ht, hnomount t (by omega)⟩
  obtain ⟨hnone, hfail⟩ := rcloneMountWait_reach rc im T 0 hpre
  have hexit0 : rc (0 + T) ≠ none := by simpa using hexit
  constructor
  · intro fuel hfuel
    have := hfail hexit0 fuel hfuel
    simpa using this
  · intro fuel t
    by_cases hf : fuel ≤ T
    · rw [hnone fuel hf]; simp
    · rw [hfail hexit0 fuel (by omega)]; simp

/-- Witness for C8: a process that has already exited at the first poll
(returncode 1) with the mount never observed. -/
theorem rcloneMount_exit_before_mount_asserts_witness :
    rcloneMountWait (fun _ => some 1) (fun _ => false) 1 0
      = some (.assertFailed 0) :=
  (rcloneMount_exit_before_mount_asserts (fun _ => some 1) (fun _ => false) 0
    (by simp) (fun t ht => absurd ht (Nat.not_lt_zero t)) (fun _ _ => rfl)).1 1 (by omega)

/-! ## Claim C3 -/

/-- Claim C3 (code bug): in `_serve_rclone_file`, when the metadata fetch
succeeded but spawning the content-read process raises, the exception is
only logged; execution then falls through to the streaming loop where the
never-assigned local `proc` is dereferenced, raising `NameError` after a
200 response has already been prepared.  The handler therefore aborts with
an unhandled error mid-response instead of completing a server-error
response, for every metadata record. -/
theorem serveRcloneFile_spawn_failure_aborts (h : RHeaders) :
    serveRcloneFile .get (.ok (some h)) (.error ()) = .abortedNameError h := rfl

/-! ## Claim C1 -/

/-- Claim C1 (counterexample): with an external metadata query that always
exits non-zero, the first Get for key `"remote"` returns Miss (`none`) but
stores that Miss in the cache (the cache is no longer empty and maps
`"remote"` to `none`), and a second Get for the same key is answered from
the cache without invoking the external query again (the invocation count
stays 1) — contradicting "this Miss outcome is not stored in the cache, so
a subsequent Get ... invokes the external query again". -/
theorem cache_miss_is_cached_counterexample :
    (cachedRcloneFileHeaders (fun _ => ⟨1, []⟩) (fun _ => "") id ⟨[], 0⟩ "remote").1
        = .ok none ∧
    (cachedRcloneFileHeaders (fun _ => ⟨1, []⟩) (fun _ => "") id ⟨[], 0⟩ "remote").2
        = ⟨[("remote", none)], 1⟩ ∧
    cachedRcloneFileHeaders (fun _ => ⟨1, []⟩) (fun _ => "") id ⟨[("remote", none)], 1⟩ "remote"
        = (.ok none, ⟨[("remote", none)], 1⟩) :=
  ⟨rfl, rfl, rfl⟩

/-- Claim C1 (amended): if the external metadata query exits non-zero, the
Get returns Miss (`None`) and this Miss IS stored in the cache, so a
subsequent Get for the same remote location is answered from the cache
without invoking the external query again; if instead the query exits zero
but its output is not exactly one object, the `ValueError` from tuple
unpacking propagates and nothing is stored for that key. -/
theorem cache_get_failure_behaviour (query : Nat → LsjsonResult) (now : Nat → String)
    (fmt : String → String) (st : CacheState) (k : String)
    (hfresh : assocLookup st.cache k = none) :
    ((query st.calls).returncode ≠ 0 →
      cachedRcloneFileHeaders query now fmt st k
          = (.ok none, ⟨st.cache ++ [(k, none)], st.calls + 1⟩) ∧
      cachedRcloneFileHeaders query now fmt ⟨st.cache ++ [(k, none)], st.calls + 1⟩ k
          = (.ok none, ⟨st.cache ++ [(k, none)], st.calls + 1⟩)) ∧
    ((query st.calls).returncode = 0 → (∀ m, (query st.calls).objects ≠ [m]) →
      cachedRcloneFileHeaders query now fmt st k = (.error (), ⟨st.cache, st.calls + 1⟩)) := by
  constructor
  · intro hrc
    have hhdr : rcloneFileHeaders (query st.calls) (now st.calls) fmt = .ok none := by
      rw [rcloneFileHeaders, if_pos hrc]
    constructor
    · rw [cachedRcloneFileHeaders, hfresh, hhdr]
    · rw [cachedRcloneFileHeaders,
        assocLookup_append_of_none st.cache k none hfresh]
  · intro hrc hobj
    have hhdr : rcloneFileHeaders (query st.calls) (now st.calls) fmt = .error () := by
      rw [rcloneFileHeaders, if_neg (by simp [hrc])]
      cases hcase : (query st.calls).objects with
      | nil => rfl
      | cons a tl =>
        cases tl with
        | nil => exact absurd hcase (hobj a)
        | cons b tl2 => rfl
    rw [cachedRcloneFileHeaders, hfresh, hhdr]

/-- Witness for C1 (amended): concrete failing query, fresh cache. -/
theorem cache_get_failure_behaviour_witness :
    cachedRcloneFileHeaders (fun _ => ⟨1, []⟩) (fun _ => "now") id ⟨[], 0⟩ "k"
        = (.ok none, ⟨[] ++ [("k", none)], 0 + 1⟩) ∧
    cachedRcloneFileHeaders (fun _ => ⟨1, []⟩) (fun _ => "now") id ⟨[] ++ [("k", none)], 0 + 1⟩ "k"
        = (.ok none, ⟨[] ++ [("k", none)], 0 + 1⟩) :=
  (cache_get_failure_behaviour (fun _ => ⟨1, []⟩) (fun _ => "now") id ⟨[], 0⟩ "k" rfl).1
    (by decide)

/-! ## Claim C6 -/

/-- Claim C6 (counterexample): a GET whose metadata fetch succeeds with
reported `Size = 5` while the content-read collaborator streams only the
three bytes `[1, 2, 3]` completes with body `[1, 2, 3]` but
`Content-Length` header `"5"`, which differs from the actual byte count —
the header comes from the metadata query, not from the streamed body. -/
theorem contentLength_mismatch_counterexample :
    serveRcloneFile .get
        (rcloneFileHeaders ⟨0, [⟨5, "text/plain", "mt"⟩]⟩ "d" id) (.ok [[1, 2, 3]])
      = .getOk ⟨"5", "text/plain", "d", "mt"⟩ [1, 2, 3] ∧
    ("5" : String) ≠ toString (streamBody [[1, 2, 3]]).length :=
  ⟨rfl, by decide⟩

/-- Claim C6 (amended): for every GET of a mapped file whose metadata
fetch succeeds — whatever the content-read collaborator streams — the
response body is byte-for-byte the concatenation, in order, of the chunks
read from the collaborator until end-of-file, and the `Content-Length`
header is the string of the metadata-reported size; consequently, when
that reported size equals the streamed byte count, the header equals the
actual byte count of the body (and, per the counterexample, not
otherwise). -/
theorem serveRcloneFile_get_body (m : FileMeta) (now : String) (fmt : String → String)
    (chunks : List (List Nat)) :
    rcloneFileHeaders ⟨0, [m]⟩ now fmt
        = .ok (some ⟨toString m.size, m.mimeType, now, fmt m.modTime⟩) ∧
    serveRcloneFile .get (rcloneFileHeaders ⟨0, [m]⟩ now fmt) (.ok chunks)
        = .getOk ⟨toString m.size, m.mimeType, now, fmt m.modTime⟩ (streamBody chunks) ∧
    (m.size = ((streamBody chunks).length : Int) →
      toString m.size = toString ((streamBody chunks).length : Int)) := by
  have hhdr : rcloneFileHeaders ⟨0, [m]⟩ now fmt
      = .ok (some ⟨toString m.size, m.mimeType, now, fmt m.modTime⟩) := by
    rw [rcloneFileHeaders]
    simp
  refine ⟨hhdr, ?_, fun hsize => by rw [hsize]⟩
  rw [hhdr]
  rfl

/-- Witness for C6 (amended): the theorem applied at reported size 3 with
three bytes streamed in two chunks, the inner size-match hypothesis
discharged concretely. -/
theorem serveRcloneFile_get_body_witness :
    serveRcloneFile .get (rcloneFileHeaders ⟨0, [⟨3, "text/plain", "mt"⟩]⟩ "d" id)
        (.ok [[1, 2], [3]])
        = .getOk ⟨toString (3 : Int), "text/plain", "d", "mt"⟩ (streamBody [[1, 2], [3]]) ∧
    toString (3 : Int) = toString ((streamBody [[1, 2], [3]]).length : Int) :=
  ⟨(serveRcloneFile_get_body ⟨3, "text/plain", "mt"⟩ "d" id [[1, 2], [3]]).2.1,
   (serveRcloneFile_get_body ⟨3, "text/plain", "mt"⟩ "d" id [[1, 2], [3]]).2.2 (by decide)⟩

/-! ## Claim C4 -/

/-- Claim C4 (counterexample): a POST to a path that matches neither a file
mapping nor a directory key is answered 405 (Method Not Allowed), not 404:
`_create_app` registers only `web.get`, so the catch-all resource carries
routes for GET and HEAD only and the dispatcher rejects the method before
the handler (whose 404 cannot be reached) runs. -/
theorem dispatch_post_is_405_counterexample :
    dispatchStatus [] (fun _ => .error ()) (fun _ => .error ()) .post "/x" = 405 ∧
    dispatchStatus [] (fun _ => .error ()) (fun _ => .error ()) .post "/x" ≠ 404 :=
  ⟨rfl, by decide⟩

/-- Claim C4 (amended): a request for a virtual path matching neither a
file mapping nor a directory listing key is answered 404 when the method
is GET or HEAD (the methods served by the registered route); a request
with any other method is answered 405 Method Not Allowed by the
dispatcher, whatever the path. -/
theorem dispatch_undefined_path (mappings : List (String × String))
    (hdrsFor : String → Except Unit (Option RHeaders))
    (spawnFor : String → Except Unit (List (List Nat))) (path : String)
    (hfile : assocLookup mappings path = none)
    (hdir : listingHasKey (buildListing (mappings.map Prod.fst)) path = false) :
    dispatchStatus mappings hdrsFor spawnFor .get path = 404 ∧
    dispatchStatus mappings hdrsFor spawnFor .head path = 404 ∧
    ∀ method, method ≠ Method.get → method ≠ Method.head →
      dispatchStatus mappings hdrsFor spawnFor method path = 405 := by
  have hh : ∀ method, handler mappings hdrsFor spawnFor method path = .notFound := by
    intro method
    rw [handler, hfile]
    simp [hdir]
  refine ⟨?_, ?_, ?_⟩
  · rw [dispatchStatus, if_pos (Or.inl rfl), hh]; rfl
  · rw [dispatchStatus, if_pos (Or.inr rfl), hh]; rfl
  · intro method h1 h2
    rw [dispatchStatus, if_neg]
    rintro (h | h)
    · exact h1 h
    · exact h2 h

/-- Witness for C4 (amended): one mapping `/a`, request path `/nope`. -/
theorem dispatch_undefined_path_witness :
    dispatchStatus [("/a", "r")] (fun _ => .error ()) (fun _ => .error ()) .get "/nope" = 404 ∧
    dispatchStatus [("/a", "r")] (fun _ => .error ()) (fun _ => .error ()) .head "/nope" = 404 ∧
    dispatchStatus [("/a", "r")] (fun _ => .error ()) (fun _ => .error ()) .put "/nope" = 405 := by
  have h := dispatch_undefined_path [("/a", "r")] (fun _ => .error ()) (fun _ => .error ())
    "/nope" rfl rfl
  exact ⟨h.1, h.2.1, h.2.2 .put (by decide) (by decide)⟩

/-! ## Listing lemmas (towards C5 and C7) -/

theorem mem_innerAdd (vs : List String) (v0 v : String) :
    v ∈ (if v0 ∈ vs then vs else vs ++ [v0]) ↔ v ∈ vs ∨ v = v0 := by
  by_cases hv0 : v0 ∈ vs
  · simp only [if_pos hv0]
    constructor
    · exact Or.inl
    · rintro (h | rfl)
      · exact h
      · exact hv0
  · simp [hv0]

theorem mem_listingGet_listingAdd (l : Listing) (k0 v0 k v : String) :
    v ∈ listingGet (listingAdd l k0 v0) k ↔ v ∈ listingGet l k ∨ (k = k0 ∧ v = v0) := by
  induction l with
  | nil =>
    by_cases hk : k0 = k
    · subst hk
      simp [listingAdd, listingGet]
    · simp [listingAdd, listingGet, hk, Ne.symm hk]
  | cons hd tl ih =>
    obtain ⟨k1, vs⟩ := hd
    by_cases h10 : k1 = k0
    · subst h10
      by_cases hk : k1 = k
      · subst hk
        simp only [listingAdd, if_pos rfl, listingGet, if_true]
        rw [mem_innerAdd]
        simp
      · simp only [listingAdd, if_pos rfl, listingGet]
        rw [if_neg hk, if_neg hk]
        simp [Ne.symm hk]
    · by_cases hk : k1 = k
      · subst hk
        simp only [listingAdd, if_neg h10, listingGet, if_true]
        simp [h10]
      · simp only [listingAdd, if_neg h10, listingGet]
        rw [if_neg hk, if_neg hk]
        exact ih

theorem listingHasKey_listingAdd (l : Listing) (k0 v0 k : String) :
    listingHasKey (listingAdd l k0 v0) k = true ↔
      listingHasKey l k = true ∨ k = k0 := by
  induction l with
  | nil =>
    simp [listingAdd, listingHasKey, eq_comm]
  | cons hd tl ih =>
    obtain ⟨k1, vs⟩ := hd
    by_cases h10 : k1 = k0
    · subst h10
      by_cases hk : k1 = k
      · subst hk
        simp [listingAdd, listingHasKey]
      · have hk' : ¬(k = k1) := fun h => hk h.symm
        simp [listingAdd, listingHasKey, hk, hk']
    · by_cases hk : k1 = k
      · subst hk
        simp [listingAdd, if_neg h10, listingHasKey]
      · simp only [listingAdd, if_neg h10, listingHasKey]
        simpa [hk] using ih

theorem mem_listingGet_foldl (ps : List (String × String)) : ∀ (l : Listing) (k v : String),
    v ∈ listingGet (ps.foldl addPair l) k ↔ v ∈ listingGet l k ∨ (k, v) ∈ ps := by
  induction ps with
  | nil => simp
  | cons p ps ih =>
    intro l k v
    obtain ⟨pk, pv⟩ := p
    simp only [List.foldl_cons]
    rw [ih]
    rw [show addPair l (pk, pv) = listingAdd l pk pv from rfl]
    rw [mem_listingGet_listingAdd]
    simp only [List.mem_cons, Prod.mk.injEq]
    tauto

theorem listingHasKey_foldl (ps : List (String × String)) : ∀ (l : Listing) (k : String),
    listingHasKey (ps.foldl addPair l) k = true ↔
      listingHasKey l k = true ∨ ∃ v, (k, v) ∈ ps := by
  induction ps with
  | nil => simp
  | cons p ps ih =>
    intro l k
    obtain ⟨pk, pv⟩ := p
    simp only [List.foldl_cons]
    rw [ih]
    rw [show addPair l (pk, pv) = listingAdd l pk pv from rfl]
    rw [listingHasKey_listingAdd]
    simp only [List.mem_cons, Prod.mk.injEq]
    constructor
    · rintro ((h | h) | ⟨v, hv⟩)
      · exact Or.inl h
      · exact Or.inr ⟨pv, Or.inl ⟨h, rfl⟩⟩
      · exact Or.inr ⟨v, Or.inr hv⟩
    · rintro (h | ⟨v, (⟨rfl, rfl⟩ | hv)⟩)
      · exact Or.inl (Or.inl h)
      · exact Or.inl (Or.inr rfl)
      · exact Or.inr ⟨v, hv⟩

theorem addMappingSegs_eq_foldl (l : Listing) (ss : List String) :
    addMappingSegs l ss = (genPairs ss).foldl addPair l := by
  simp [addMappingSegs, genPairs, List.foldl_append, List.foldl_map, addPair]

theorem mem_listingGet_buildListing_aux (ms : List String) : ∀ (l : Listing) (k v : String),
    v ∈ listingGet (ms.foldl (fun acc m => addMappingSegs acc (pySplitSlash m)) l) k ↔
      v ∈ listingGet l k ∨ ∃ m ∈ ms, (k, v) ∈ genPairs (pySplitSlash m) := by
  induction ms with
  | nil => simp
  | cons m ms ih =>
    intro l k v
    simp only [List.foldl_cons]
    rw [ih, addMappingSegs_eq_foldl, mem_listingGet_foldl]
    simp only [List.mem_cons]
    constructor
    · rintro ((h | h) | ⟨m2, hm2, h⟩)
      · exact Or.inl h
      · exact Or.inr ⟨m, Or.inl rfl, h⟩
      · exact Or.inr ⟨m2, Or.inr hm2, h⟩
    · rintro (h | ⟨m2, (rfl | hm2), h⟩)
      · exact Or.inl (Or.inl h)
      · exact Or.inl (Or.inr h)
      · exact Or.inr ⟨m2, hm2, h⟩

/-- Membership in the built listing: an entry `v` appears under key `k`
exactly when some mapping generates the pair `(k, v)`. -/
theorem mem_listingGet_buildListing (ms : List String) (k v : String) :
    v ∈ listingGet (buildListing ms) k ↔
      ∃ m ∈ ms, (k, v) ∈ genPairs (pySplitSlash m) := by
  rw [buildListing, mem_listingGet_buildListing_aux]
  simp [listingGet]

theorem listingHasKey_buildListing_aux (ms : List String) : ∀ (l : Listing) (k : String),
    listingHasKey (ms.foldl (fun acc m => addMappingSegs acc (pySplitSlash m)) l) k = true ↔
      listingHasKey l k = true ∨ ∃ m ∈ ms, ∃ v, (k, v) ∈ genPairs (pySplitSlash m) := by
  induction ms with
  | nil => simp
  | cons m ms ih =>
    intro l k
    simp only [List.foldl_cons]
    rw [ih, addMappingSegs_eq_foldl, listingHasKey_foldl]
    simp only [List.mem_cons]
    constructor
    · rintro ((h | ⟨v, hv⟩) | ⟨m2, hm2, v, h⟩)
      · exact Or.inl h
      · exact Or.inr ⟨m, Or.inl rfl, v, hv⟩
      · exact Or.inr ⟨m2, Or.inr hm2, v, h⟩
    · rintro (h | ⟨m2, (rfl | hm2), v, h⟩)
      · exact Or.inl (Or.inl h)
      · exact Or.inl (Or.inr ⟨v, h⟩)
      · exact Or.inr ⟨m2, hm2, v, h⟩

/-- Key presence in the built listing. -/
theorem listingHasKey_buildListing (ms : List String) (k : String) :
    listingHasKey (buildListing ms) k = true ↔
      ∃ m ∈ ms, ∃ v, (k, v) ∈ genPairs (pySplitSlash m) := by
  rw [buildListing, listingHasKey_buildListing_aux]
  simp [listingHasKey]

/-! ## Claim C7 -/

/-- Claim C7: for every path mapping, every ancestor directory of every
virtual path — the root `/` (`j = 0`) up to the immediate parent
(`j = segs.length - 1`) — is present as a listing key in the Path Index
built from the mapping, even when no mapping entry targets that directory
directly. -/
theorem ancestors_are_listing_keys (ms : List String) (m : String) (segs : List String)
    (j : Nat) (hm : m ∈ ms) (hsplit : pySplitSlash m = "" :: segs)
    (hj : j < segs.length) :
    listingHasKey (buildListing ms) (dirKey (segs.take j)) = true := by
  rw [listingHasKey_buildListing]
  refine ⟨m, hm, ?_⟩
  rw [hsplit, genPairs]
  by_cases hcase : j + 2 ≤ segs.length
  · refine ⟨joinSlash (("" :: segs).take (j + 2)) ++ "/", ?_⟩
    rw [List.mem_append]
    left
    rw [List.mem_map]
    refine ⟨j + 2, ?_, ?_⟩
    · rw [List.mem_range']
      refine ⟨j + 1, ?_, by omega⟩
      simp only [List.length_cons]
      omega
    · have h1 : j + 2 - 1 = j + 1 := rfl
      rw [h1, List.take_succ_cons]
      rfl
  · have hj1 : segs.length = j + 1 := by omega
    refine ⟨("" :: segs).getLastD "", ?_⟩
    rw [List.mem_append]
    right
    simp only [List.mem_singleton]
    have hdl : ("" :: segs).dropLast = "" :: segs.take j := by
      rw [List.dropLast_eq_take]
      simp only [List.length_cons, Nat.add_sub_cancel, hj1, List.take_succ_cons]
    rw [hdl]
    rfl

/-- Witness for C7: mapping `/a/b` produces listing keys for both
ancestors `/` (`j = 0`) and `/a/` (`j = 1`). -/
theorem ancestors_are_listing_keys_witness :
    listingHasKey (buildListing ["/a/b"]) (dirKey (["a", "b"].take 0)) = true ∧
    listingHasKey (buildListing ["/a/b"]) (dirKey (["a", "b"].take 1)) = true :=
  ⟨ancestors_are_listing_keys ["/a/b"] "/a/b" ["a", "b"] 0 (by simp) rfl (by decide),
   ancestors_are_listing_keys ["/a/b"] "/a/b" ["a", "b"] 1 (by simp) rfl (by decide)⟩

/-! ## Injectivity of the directory-key encoding -/

theorem joinSlash_data (l : List String) :
    (joinSlash l).data = joinCL (l.map String.data) := by
  induction l with
  | nil => rfl
  | cons a rest ih =>
    cases rest with
    | nil => rfl
    | cons b rest2 =>
      simp only [joinSlash, joinCL, List.map_cons, String.data_append, ih]
      simp [List.append_assoc]

/-- Tokenization is unambiguous: a slash-free prefix followed by `[]` or a
slash-starting remainder determines both parts. -/
theorem headSplitCL : ∀ (a b r r' : List Char),
    ('/' ∉ a) → ('/' ∉ b) →
    (r = [] ∨ ∃ r0, r = '/' :: r0) → (r' = [] ∨ ∃ r0, r' = '/' :: r0) →
    a ++ r = b ++ r' → a = b ∧ r = r' := by
  intro a
  induction a with
  | nil =>
    intro b r r' _ hb hr _ heq
    cases b with
    | nil => simpa using heq
    | cons c bs =>
      exfalso
      rcases hr with rfl | ⟨r0, rfl⟩
      · simp at heq
      · simp only [List.nil_append, List.cons_append, List.cons.injEq] at heq
        exact hb (heq.1 ▸ List.mem_cons_self c bs)
  | cons c as ih =>
    intro b r r' ha hb hr hr' heq
    cases b with
    | nil =>
      exfalso
      rcases hr' with rfl | ⟨r0, rfl⟩
      · simp at heq
      · simp only [List.nil_append, List.cons_append, List.cons.injEq] at heq
        exact ha (heq.1 ▸ List.mem_cons_self c as)
    | cons d bs =>
      simp only [List.cons_append, List.cons.injEq] at heq
      obtain ⟨rfl, heq2⟩ := heq
      have ha' : '/' ∉ as := fun h => ha (List.mem_cons_of_mem _ h)
      have hb' : '/' ∉ bs := fun h => hb (List.mem_cons_of_mem _ h)
      obtain ⟨h1, h2⟩ := ih bs r r' ha' hb' hr hr' heq2
      exact ⟨by rw [h1], h2⟩

theorem joinCL_inj (a : List Char) (as : List (List Char)) :
    ∀ (b : List Char) (bs : List (List Char)),
    ('/' ∉ a) → (∀ x ∈ as, '/' ∉ x) → ('/' ∉ b) → (∀ x ∈ bs, '/' ∉ x) →
    joinCL (a :: as) = joinCL (b :: bs) → a :: as = b :: bs := by
  induction as generalizing a with
  | nil =>
    intro b bs ha _ hb hbs heq
    cases bs with
    | nil => simpa [joinCL] using heq
    | cons b2 bs2 =>
      have := headSplitCL a b [] ('/' :: joinCL (b2 :: bs2)) ha hb
        (Or.inl rfl) (Or.inr ⟨_, rfl⟩) (by simpa [joinCL] using heq)
      exact absurd this.2 (by simp)
  | cons a2 as2 ih =>
    intro b bs ha has hb hbs heq
    cases bs with
    | nil =>
      have := headSplitCL a b ('/' :: joinCL (a2 :: as2)) [] ha hb
        (Or.inr ⟨_, rfl⟩) (Or.inl rfl) (by simpa [joinCL] using heq)
      exact absurd this.2 (by simp)
    | cons b2 bs2 =>
      have hsp := headSplitCL a b ('/' :: joinCL (a2 :: as2)) ('/' :: joinCL (b2 :: bs2)) ha hb
        (Or.inr ⟨_, rfl⟩) (Or.inr ⟨_, rfl⟩) (by simpa [joinCL] using heq)
      obtain ⟨h1, h2⟩ := hsp
      simp only [List.cons.injEq, true_and] at h2
      have ha2 : '/' ∉ a2 := has a2 (List.mem_cons_self _ _)
      have has2 : ∀ x ∈ as2, '/' ∉ x := fun x hx => has x (List.mem_cons_of_mem _ hx)
      have hb2 : '/' ∉ b2 := hbs b2 (List.mem_cons_self _ _)
      have hbs2 : ∀ x ∈ bs2, '/' ∉ x := fun x hx => hbs x (List.mem_cons_of_mem _ hx)
      have htail := ih a2 b2 bs2 ha2 has2 hb2 hbs2 h2
      rw [h1, htail]

theorem string_data_injective : Function.Injective String.data := by
  intro x y h
  cases x
  cases y
  exact congrArg String.mk h

/-- `dirKey` is injective on slash-free segment lists. -/
theorem dirKey_inj (p q : List String) (hp : ∀ x ∈ p, SlashFree x)
    (hq : ∀ x ∈ q, SlashFree x) (heq : dirKey p = dirKey q) : p = q := by
  have hdata : (dirKey p).data = (dirKey q).data := by rw [heq]
  rw [dirKey, dirKey, String.data_append, String.data_append] at hdata
  have hjoin : (joinSlash ("" :: p)).data = (joinSlash ("" :: q)).data :=
    List.append_cancel_right hdata
  rw [joinSlash_data, joinSlash_data] at hjoin
  simp only [List.map_cons] at hjoin
  have hmp : ∀ x ∈ p.map String.data, '/' ∉ x := by
    intro x hx
    obtain ⟨y, hy, rfl⟩ := List.mem_map.1 hx
    exact hp y hy
  have hmq : ∀ x ∈ q.map String.data, '/' ∉ x := by
    intro x hx
    obtain ⟨y, hy, rfl⟩ := List.mem_map.1 hx
    exact hq y hy
  have hcons := joinCL_inj "".data (p.map String.data) "".data (q.map String.data)
    (by simp) hmp (by simp) hmq hjoin
  simp only [List.cons.injEq, true_and] at hcons
  exact List.map_injective_iff.2 string_data_injective hcons

/-! ## Characterizing the pairs generated for one mapping -/

theorem dirKey_nil : dirKey ([] : List String) = "/" := rfl

theorem pairAtOne (segs : List String) :
    (joinSlash (("" :: segs).take (1 - 1)) ++ "/", joinSlash (("" :: segs).take 1) ++ "/")
      = ("/", "/") := by
  have h1 : ("" :: segs).take (1 - 1) = [] := rfl
  have h2 : ("" :: segs).take 1 = [""] := rfl
  rw [h1, h2]
  decide

theorem pairAtSucc (segs : List String) (j : Nat) :
    (joinSlash (("" :: segs).take (j + 2 - 1)) ++ "/", joinSlash (("" :: segs).take (j + 2)) ++ "/")
      = (dirKey (segs.take j), dirKey (segs.take (j + 1))) := by
  have h1 : j + 2 - 1 = j + 1 := rfl
  rw [h1, List.take_succ_cons, List.take_succ_cons]
  rfl

theorem pairFinal (segs : List String) :
    (joinSlash (("" :: segs).dropLast) ++ "/", ("" :: segs).getLastD "")
      = (dirKey segs.dropLast, segs.getLastD "") := by
  cases segs with
  | nil => decide
  | cons s rest =>
    rw [List.dropLast_cons_of_ne_nil (List.cons_ne_nil s rest), List.getLastD_cons]
    rfl

/-- The (key, entry) pairs a mapping with segment list `segs` inserts:
a root self-entry `("/", "/")` (whenever the loop runs at all), the
directory-to-child-directory pairs, and the final leaf pair. -/
theorem genPairs_cons_mem_iff (segs : List String) (k v : String) :
    (k, v) ∈ genPairs ("" :: segs) ↔
      (segs ≠ [] ∧ k = "/" ∧ v = "/") ∨
      (∃ j, j + 2 ≤ segs.length ∧ k = dirKey (segs.take j) ∧ v = dirKey (segs.take (j + 1))) ∨
      (k = dirKey segs.dropLast ∧ v = segs.getLastD "") := by
  rw [genPairs, List.mem_append, List.mem_singleton]
  simp only [List.length_cons, Nat.add_sub_cancel]
  constructor
  · rintro (hloop | hfin)
    · rw [List.mem_map] at hloop
      obtain ⟨i, hi, hfi⟩ := hloop
      rw [List.mem_range'] at hi
      obtain ⟨i0, hi0, rfl⟩ := hi
      have e : 1 + 1 * i0 = i0 + 1 := by omega
      rw [e] at hfi
      cases i0 with
      | zero =>
        simp only [Nat.zero_add] at hfi
        rw [pairAtOne, Prod.mk.injEq] at hfi
        obtain ⟨hk, hv⟩ := hfi
        exact Or.inl ⟨List.ne_nil_of_length_pos hi0, hk.symm, hv.symm⟩
      | succ j =>
        have e2 : j + 1 + 1 = j + 2 := rfl
        rw [e2] at hfi
        rw [pairAtSucc, Prod.mk.injEq] at hfi
        obtain ⟨hk, hv⟩ := hfi
        exact Or.inr (Or.inl ⟨j, by omega, hk.symm, hv.symm⟩)
    · rw [pairFinal, Prod.mk.injEq] at hfin
      obtain ⟨hk, hv⟩ := hfin
      exact Or.inr (Or.inr ⟨hk, hv⟩)
  · rintro (⟨hne, rfl, rfl⟩ | ⟨j, hj, rfl, rfl⟩ | ⟨rfl, rfl⟩)
    · left
      rw [List.mem_map]
      refine ⟨1, ?_, pairAtOne segs⟩
      rw [List.mem_range']
      exact ⟨0, List.length_pos.2 hne, by omega⟩
    · left
      rw [List.mem_map]
      refine ⟨j + 2, ?_, pairAtSucc segs j⟩
      rw [List.mem_range']
      exact ⟨j + 1, by omega, by omega⟩
    · right
      exact (pairFinal segs).symm

/-! ## Towards the C5 characterization -/

theorem specImmediateChild_iff (S : List (List String)) (p : List String) (v : String) :
    specImmediateChild S p v = true ↔
      ∃ segs ∈ S,
        (p.length + 1 < segs.length ∧ segs.take p.length = p
          ∧ v = dirKey (segs.take (p.length + 1)))
        ∨ (segs.length = p.length + 1 ∧ segs.take p.length = p ∧ v = segs.getLastD "") := by
  simp only [specImmediateChild, List.any_eq_true, Bool.or_eq_true, Bool.and_eq_true,
    beq_iff_eq, decide_eq_true_eq]
  constructor
  · rintro ⟨segs, hsegs, (⟨⟨h1, h2⟩, h3⟩ | ⟨⟨h1, h2⟩, h3⟩)⟩
    · exact ⟨segs, hsegs, Or.inl ⟨h1, h2, h3⟩⟩
    · exact ⟨segs, hsegs, Or.inr ⟨h1, h2, h3⟩⟩
  · rintro ⟨segs, hsegs, (⟨h1, h2, h3⟩ | ⟨h1, h2, h3⟩)⟩
    · exact ⟨segs, hsegs, Or.inl ⟨⟨h1, h2⟩, h3⟩⟩
    · exact ⟨segs, hsegs, Or.inr ⟨⟨h1, h2⟩, h3⟩⟩

/-- Membership characterization for a directory key `dirKey p` of the built
listing, for well-formed mappings: the entries are exactly the immediate
children (code representation: full directory path with trailing slash for
intermediate-directory children, final segment name for leaf children),
plus a self-entry `"/"` when `p` is the root and the mapping is nonempty. -/
theorem mem_listingGet_dirKey (ms : List String) (S : List (List String))
    (p : List String) (v : String)
    (hms : ms.map pySplitSlash = S.map (fun segs => "" :: segs))
    (hS : ∀ segs ∈ S, ValidSegs segs) (hp : ValidDir p) :
    v ∈ listingGet (buildListing ms) (dirKey p) ↔
      (specImmediateChild S p v = true ∨ (p = [] ∧ v = "/" ∧ S ≠ [])) := by
  have hms_iff : ∀ (P : List String → Prop),
      (∃ m ∈ ms, P (pySplitSlash m)) ↔ (∃ segs ∈ S, P ("" :: segs)) := by
    intro P
    constructor
    · rintro ⟨m, hm, hP⟩
      have hmem : pySplitSlash m ∈ ms.map pySplitSlash := List.mem_map_of_mem _ hm
      rw [hms] at hmem
      obtain ⟨segs, hsegs, he⟩ := List.mem_map.1 hmem
      exact ⟨segs, hsegs, he ▸ hP⟩
    · rintro ⟨segs, hsegs, hP⟩
      have hmem : ("" :: segs) ∈ S.map (fun segs => "" :: segs) :=
        List.mem_map_of_mem _ hsegs
      rw [← hms] at hmem
      obtain ⟨m, hm, he⟩ := List.mem_map.1 hmem
      refine ⟨m, hm, ?_⟩
      rw [he]
      exact hP
  have hpfree : ∀ x ∈ p, SlashFree x := fun x hx => (hp x hx).2
  rw [mem_listingGet_buildListing,
    hms_iff (fun ss => (dirKey p, v) ∈ genPairs ss)]
  simp only [genPairs_cons_mem_iff]
  rw [specImmediateChild_iff]
  constructor
  · rintro ⟨segs, hsegs, (⟨hne, hk, hv⟩ | ⟨j, hj, hk, hv⟩ | ⟨hk, hv⟩)⟩
    · have hp0 : p = [] :=
        dirKey_inj p [] hpfree (by simp) (hk.trans dirKey_nil.symm)
      exact Or.inr ⟨hp0, hv, List.ne_nil_of_mem hsegs⟩
    · obtain ⟨hne, hall⟩ := hS segs hsegs
      have htfree : ∀ x ∈ segs.take j, SlashFree x :=
        fun x hx => (hall x (List.take_subset j segs hx)).2
      have hpj : p = segs.take j := dirKey_inj p (segs.take j) hpfree htfree hk
      have hlenp : p.length = j := by
        rw [hpj, List.length_take]
        exact Nat.min_eq_left (by omega)
      left
      refine ⟨segs, hsegs, Or.inl ⟨by omega, ?_, ?_⟩⟩
      · rw [hlenp]
        exact hpj.symm
      · rw [hlenp]
        exact hv
    · obtain ⟨hne, hall⟩ := hS segs hsegs
      have hdfree : ∀ x ∈ segs.dropLast, SlashFree x :=
        fun x hx => (hall x (List.dropLast_subset segs hx)).2
      have hpd : p = segs.dropLast := dirKey_inj p segs.dropLast hpfree hdfree hk
      have hpos : 0 < segs.length := List.length_pos.2 hne
      have hlenp : p.length = segs.length - 1 := by
        rw [hpd, List.length_dropLast]
      left
      refine ⟨segs, hsegs, Or.inr ⟨by omega, ?_, hv⟩⟩
      rw [hlenp, ← List.dropLast_eq_take]
      exact hpd.symm
  · rintro (⟨segs, hsegs, (⟨h1, h2, h3⟩ | ⟨h1, h2, h3⟩)⟩ | ⟨rfl, rfl, hSne⟩)
    · refine ⟨segs, hsegs, Or.inr (Or.inl ⟨p.length, by omega, ?_, h3⟩)⟩
      rw [h2]
    · refine ⟨segs, hsegs, Or.inr (Or.inr ⟨?_, h3⟩)⟩
      rw [List.dropLast_eq_take, h1, Nat.add_sub_cancel, h2]
    · obtain ⟨segs, hsegs⟩ := List.exists_mem_of_ne_nil S hSne
      exact ⟨segs, hsegs, Or.inl ⟨(hS segs hsegs).1, dirKey_nil, rfl⟩⟩

/-! ## No duplicate entries -/

/-- The inner-dict read after a dict write: only the first occurrence of a
key is ever read or written, so the update is fully described by the value
previously read at that key. -/
theorem listingGet_listingAdd (l : Listing) (k0 v0 k : String) :
    listingGet (listingAdd l k0 v0) k =
      if k = k0 then
        (if v0 ∈ listingGet l k0 then listingGet l k0 else listingGet l k0 ++ [v0])
      else listingGet l k := by
  induction l with
  | nil =>
    by_cases hk : k = k0
    · subst hk
      simp [listingAdd, listingGet]
    · have hk2 : ¬(k0 = k) := fun h => hk h.symm
      simp [listingAdd, listingGet, hk, hk2]
  | cons hd tl ih =>
    obtain ⟨k1, vs⟩ := hd
    by_cases h10 : k1 = k0
    · subst h10
      by_cases hk : k1 = k
      · subst hk
        simp [listingAdd, listingGet]
      · have hk2 : ¬(k = k1) := fun h => hk h.symm
        simp [listingAdd, listingGet, hk, hk2]
    · by_cases hk : k1 = k
      · subst hk
        have hk2 : ¬(k1 = k0) := h10
        simp [listingAdd, listingGet, h10, hk2]
      · simp [listingAdd, listingGet, h10, hk, ih]

theorem nodup_innerAdd (vs : List String) (v0 : String) (h : vs.Nodup) :
    (if v0 ∈ vs then vs else vs ++ [v0]).Nodup := by
  by_cases hv0 : v0 ∈ vs
  · simpa [hv0] using h
  · simp [hv0, List.nodup_append, h]

theorem nodup_listingGet_listingAdd (l : Listing) (k0 v0 : String)
    (h : ∀ k, (listingGet l k).Nodup) : ∀ k, (listingGet (listingAdd l k0 v0) k).Nodup := by
  intro k
  rw [listingGet_listingAdd]
  by_cases hk : k = k0
  · rw [if_pos hk]
    exact nodup_innerAdd _ _ (h k0)
  · rw [if_neg hk]
    exact h k

theorem nodup_listingGet_foldl (ps : List (String × String)) :
    ∀ l, (∀ k, (listingGet l k).Nodup) →
      ∀ k, (listingGet (ps.foldl addPair l) k).Nodup := by
  induction ps with
  | nil =>
    intro l h
    exact h
  | cons p ps ih =>
    intro l h
    exact ih _ (nodup_listingGet_listingAdd l p.1 p.2 h)

/-- No directory listing of the built Path Index contains a duplicate
entry. -/
theorem nodup_listingGet_buildListing (ms : List String) :
    ∀ k, (listingGet (buildListing ms) k).Nodup := by
  suffices h : ∀ l, (∀ k, (listingGet l k).Nodup) →
      ∀ k, (listingGet
        (ms.foldl (fun acc m => addMappingSegs acc (pySplitSlash m)) l) k).Nodup by
    exact h [] (by intro k; simp [listingGet])
  induction ms with
  | nil =>
    intro l h
    exact h
  | cons m ms ih =>
    intro l h
    simp only [List.foldl_cons]
    refine ih _ ?_
    rw [addMappingSegs_eq_foldl]
    exact nodup_listingGet_foldl _ _ h

/-! ## Insertion-order independence -/

/-- Entry sets of the built listing are invariant under permutations of
the mapping's key list. -/
theorem buildListing_perm_mem (ms ms2 : List String) (hperm : ms.Perm ms2) (k v : String) :
    v ∈ listingGet (buildListing ms2) k ↔ v ∈ listingGet (buildListing ms) k := by
  rw [mem_listingGet_buildListing, mem_listingGet_buildListing]
  constructor
  · rintro ⟨m, hm, h⟩
    exact ⟨m, hperm.mem_iff.2 hm, h⟩
  · rintro ⟨m, hm, h⟩
    exact ⟨m, hperm.mem_iff.1 hm, h⟩

/-! ## Claim C5 -/

/-- Claim C5 (counterexample): for the mapping with single virtual path
`/a`, the root directory listing contains the entry `"/"` — the root
itself, inserted by the `i = 1` iteration of the build loop — which is not
an immediate child of the root, so the listing does not contain exactly
the immediate children. -/
theorem listing_root_self_entry_counterexample :
    ("/" ∈ listingGet (buildListing ["/a"]) (dirKey [])) ∧
    specImmediateChild [["a"]] [] "/" = false := by
  exact ⟨by decide, by decide⟩

/-- Claim C5 (amended): for every well-formed path mapping and every
directory key of the built Path Index, the directory listing contains
exactly the immediate children of that directory (sub-paths one segment
deeper: intermediate directory children stored as their full path with a
trailing slash, leaf files as their final segment name) — no deeper
descendants and no duplicate entries — and the entry set is the same for
any insertion order of the mapping; the single exception is the root
listing, which additionally contains a self-entry `"/"` whenever the
mapping is nonempty. -/
theorem listing_children_exact (ms : List String) (S : List (List String))
    (p : List String) (v : String)
    (hms : ms.map pySplitSlash = S.map (fun segs => "" :: segs))
    (hS : ∀ segs ∈ S, ValidSegs segs) (hp : ValidDir p) :
    (v ∈ listingGet (buildListing ms) (dirKey p) ↔
      (specImmediateChild S p v = true ∨ (p = [] ∧ v = "/" ∧ S ≠ []))) ∧
    (listingGet (buildListing ms) (dirKey p)).Nodup ∧
    (∀ ms2, ms.Perm ms2 → ∀ v2 k,
      (v2 ∈ listingGet (buildListing ms2) k ↔ v2 ∈ listingGet (buildListing ms) k)) :=
  ⟨mem_listingGet_dirKey ms S p v hms hS hp,
   nodup_listingGet_buildListing ms (dirKey p),
   fun ms2 hperm v2 k => buildListing_perm_mem ms ms2 hperm k v2⟩

/-- Witness for C5 (amended): mapping with paths `/a/b` and `/c`; the
immediate directory child `/a/` of the root appears in the root listing. -/
theorem listing_children_exact_witness :
    "/a/" ∈ listingGet (buildListing ["/a/b", "/c"]) (dirKey []) :=
  (listing_children_exact ["/a/b", "/c"] [["a", "b"], ["c"]] [] "/a/"
    rfl (by decide) (by decide)).1.mpr (Or.inl (by decide))

end RClonePathmap
